import Mathlib

/-!
Verification of scripts/rename-scope.js, the package-scope renaming CLI.

The script is embedded shallowly: file contents are Lean Strings (lists of
Chars), the filesystem is an explicit list of files with per-file read/write
outcomes, and interactive stdin is a list of input lines.  Regex character
classes are translated to decidable predicates on Unicode code points, and
the two regex scans (the global replace of the literal "@ordinarysh/" and
the global match of "@ordinarysh/[\w-]+") are translated to fuel-indexed
left-to-right scanners, with fuel instantiated to the content length so that
every definition is executable by kernel reduction.
-/

/-- Character class [a-z0-9] of the scope-validation regex
^[a-z0-9]([a-z0-9-]*[a-z0-9])?$ in isValidScope (line 83). -/
def isLowerAlnum (c : Char) : Bool :=
  (97 ≤ c.toNat && c.toNat ≤ 122) || (48 ≤ c.toNat && c.toNat ≤ 57)

/-- Character class [a-z0-9-] of the scope-validation regex. -/
def isScopeChar (c : Char) : Bool :=
  isLowerAlnum c || c == '-'

/-- Regex \w, i.e. [A-Za-z0-9_], as used in the match pattern
@ordinarysh\/[\w-]+ (line 114). -/
def isWordChar (c : Char) : Bool :=
  (65 ≤ c.toNat && c.toNat ≤ 90) || (97 ≤ c.toNat && c.toNat ≤ 122) ||
    (48 ≤ c.toNat && c.toNat ≤ 57) || c == '_'

/-- Character class [\w-] of the match pattern. -/
def isWordDash (c : Char) : Bool :=
  isWordChar c || c == '-'

/-- Whitespace removed by JavaScript String.prototype.trim (ASCII part:
space, tab, newline, carriage return, vertical tab, form feed). -/
def isJsSpace (c : Char) : Bool :=
  c.toNat == 32 || c.toNat == 9 || c.toNat == 10 ||
    c.toNat == 13 || c.toNat == 11 || c.toNat == 12

/-- JavaScript input.trim() on a line of characters. -/
def trimList (l : List Char) : List Char :=
  List.reverse (List.dropWhile isJsSpace (List.reverse (List.dropWhile isJsSpace l)))

/-- Decidable prefix test on character lists (the anchored-at-position part
of regex scanning). -/
def startsWith : List Char → List Char → Bool
  | [], _ => true
  | _ :: _, [] => false
  | p :: ps, c :: cs => p == c && startsWith ps cs

/-- The literal pattern of the global replace /@ordinarysh\//g (line 124),
as a character list. -/
def oldPat : List Char := "@ordinarysh/".data

/-- The replacement text built from the destination scope at line 124. -/
def repChars (newScope : String) : List Char :=
  '@' :: (newScope.data ++ ['/'])

/-- Occurrence of pattern p somewhere inside l. -/
def Occurs (p l : List Char) : Prop := ∃ a b, l = a ++ (p ++ b)

/-- Fuel-indexed left-to-right global replace of pattern pat by rep, the
semantics of content.replace(/@ordinarysh\//g, rep): at each position either
the pattern matches (emit rep, resume after the match) or the head character
is copied.  Fuel at least the length of the input makes the zero-fuel branch
unreachable. -/
def replaceGo (pat rep : List Char) : Nat → List Char → List Char
  | _, [] => []
  | 0, l => l
  | fuel + 1, c :: cs =>
    if startsWith pat (c :: cs) then
      rep ++ replaceGo pat rep fuel (List.drop pat.length (c :: cs))
    else
      c :: replaceGo pat rep fuel cs

/-- replaceReferences(content, newScope) at lines 122-125: the falsy guard
returns empty content unchanged, otherwise every occurrence of
"@ordinarysh/" is replaced by "@" + newScope + "/". -/
def replaceReferences (content : String) (newScope : String) : String :=
  if content = "" then content
  else String.mk (replaceGo oldPat (repChars newScope) content.data.length content.data)

theorem startsWith_iff (p l : List Char) :
    startsWith p l = true ↔ ∃ t, l = p ++ t := by
  induction p generalizing l with
  | nil => simp [startsWith]
  | cons x ps ih =>
    cases l with
    | nil =>
      simp only [startsWith]
      constructor
      · intro h; exact absurd h (by simp)
      · rintro ⟨t, ht⟩; exact absurd ht (by simp)
    | cons c cs =>
      simp only [startsWith, Bool.and_eq_true, beq_iff_eq, ih]
      constructor
      · rintro ⟨rfl, t, rfl⟩; exact ⟨t, rfl⟩
      · rintro ⟨t, ht⟩
        rw [List.cons_append] at ht
        injection ht with h1 h2
        exact ⟨h1.symm, t, h2⟩

theorem occurs_cons (p : List Char) (c : Char) (cs : List Char) :
    Occurs p (c :: cs) ↔ (∃ t, c :: cs = p ++ t) ∨ Occurs p cs := by
  constructor
  · rintro ⟨a, b, hab⟩
    cases a with
    | nil => exact Or.inl ⟨b, by simpa using hab⟩
    | cons x a2 =>
      rw [List.cons_append] at hab
      injection hab with h1 h2
      exact Or.inr ⟨a2, b, h2⟩
  · rintro (⟨t, ht⟩ | ⟨a, b, hab⟩)
    · exact ⟨[], t, by simpa using ht⟩
    · exact ⟨c :: a, b, by simp [hab]⟩

theorem occurs_nil (p : List Char) (hp : p ≠ []) : ¬ Occurs p [] := by
  rintro ⟨a, b, hab⟩
  rcases List.append_eq_nil.mp hab.symm with ⟨h1, h2⟩
  rcases List.append_eq_nil.mp h2 with ⟨h3, _⟩
  exact hp h3

/-- If the replaced pattern occurs nowhere in the input, the global replace
copies every character: the input is returned unchanged. -/
theorem replaceGo_of_not_occurs (pat rep : List Char) (fuel : Nat) (l : List Char)
    (h : ¬ Occurs pat l) : replaceGo pat rep fuel l = l := by
  induction fuel generalizing l with
  | zero => cases l <;> rfl
  | succ fuel ih =>
    cases l with
    | nil => rfl
    | cons c cs =>
      have hnp : startsWith pat (c :: cs) = false := by
        by_contra hne
        have htrue : startsWith pat (c :: cs) = true := by
          cases hsw : startsWith pat (c :: cs) with
          | false => exact absurd hsw hne
          | true => rfl
        rcases (startsWith_iff pat (c :: cs)).mp htrue with ⟨t, ht⟩
        exact h ⟨[], t, by simpa using ht⟩
      have hcs : ¬ Occurs pat cs := fun ho =>
        h ((occurs_cons pat c cs).mpr (Or.inr ho))
      show replaceGo pat rep (fuel + 1) (c :: cs) = c :: cs
      rw [replaceGo, hnp]
      simp [ih cs hcs]

/-- Decidable occurrence scan: does pattern p occur anywhere in the list. -/
def hasOccur (p : List Char) : List Char → Bool
  | [] => startsWith p []
  | c :: cs => startsWith p (c :: cs) || hasOccur p cs

theorem hasOccur_iff (p l : List Char) : hasOccur p l = true ↔ Occurs p l := by
  induction l with
  | nil =>
    simp only [hasOccur, startsWith_iff]
    constructor
    · rintro ⟨t, ht⟩
      rcases List.append_eq_nil.mp ht.symm with ⟨h1, h2⟩
      exact ⟨[], [], by simp [h1, h2]⟩
    · rintro ⟨a, b, hab⟩
      rcases List.append_eq_nil.mp hab.symm with ⟨h1, h2⟩
      rcases List.append_eq_nil.mp h2 with ⟨h3, h4⟩
      exact ⟨[], by simp [h3]⟩
  | cons c cs ih =>
    simp only [hasOccur, Bool.or_eq_true, startsWith_iff, ih, occurs_cons]

/-- Replacing a pattern by itself is the identity map. -/
theorem replaceGo_self (pat : List Char) (hp : pat ≠ []) (fuel : Nat) :
    ∀ l : List Char, l.length ≤ fuel → replaceGo pat pat fuel l = l := by
  induction fuel with
  | zero =>
    intro l hl
    cases l <;> rfl
  | succ fuel ih =>
    intro l hl
    cases l with
    | nil => rfl
    | cons c cs =>
      by_cases hsw : startsWith pat (c :: cs) = true
      · rcases (startsWith_iff pat (c :: cs)).mp hsw with ⟨t, ht⟩
        have hlen : t.length ≤ fuel := by
          have h1 : (c :: cs).length = pat.length + t.length := by
            rw [ht, List.length_append]
          have h2 : 1 ≤ pat.length := List.length_pos.mpr hp
          simp only [List.length_cons] at h1 hl
          omega
        show replaceGo pat pat (fuel + 1) (c :: cs) = c :: cs
        rw [replaceGo, if_pos hsw, ht, List.drop_left, ih t hlen]
      · show replaceGo pat pat (fuel + 1) (c :: cs) = c :: cs
        rw [replaceGo, if_neg hsw]
        have hcs : cs.length ≤ fuel := by
          simp only [List.length_cons] at hl; omega
        rw [ih cs hcs]

/-- A nonempty pattern that avoids the character '@' and is a prefix of the
output of the global replace (whose replacement text starts with '@') was
already a prefix of the input. -/
theorem startsWith_replaceGo (mid : List Char) (fuel : Nat) :
    ∀ l t : List Char, t ≠ [] → '@' ∉ t →
      startsWith t (replaceGo oldPat ('@' :: mid) fuel l) = true →
      startsWith t l = true := by
  induction fuel with
  | zero =>
    intro l t _ _ h
    cases l with
    | nil => exact h
    | cons c cs => exact h
  | succ fuel ih =>
    intro l t htne hat h
    cases l with
    | nil => exact h
    | cons c cs =>
      cases t with
      | nil => exact absurd rfl htne
      | cons t0 ts =>
        by_cases hsw : startsWith oldPat (c :: cs) = true
        · rw [replaceGo, if_pos hsw] at h
          rw [List.cons_append] at h
          rw [startsWith, Bool.and_eq_true, beq_iff_eq] at h
          exact absurd (h.1 ▸ List.mem_cons_self t0 ts) hat
        · rw [replaceGo, if_neg hsw] at h
          rw [startsWith, Bool.and_eq_true, beq_iff_eq] at h
          rw [startsWith, Bool.and_eq_true, beq_iff_eq]
          refine ⟨h.1, ?_⟩
          cases ts with
          | nil => cases cs <;> rfl
          | cons u us =>
            exact ih cs (u :: us) (by simp) (fun hm => hat (List.mem_cons_of_mem t0 hm)) h.2

/-- An occurrence of the pattern (which starts with '@') inside m ++ y where
m contains no '@' lies entirely inside y. -/
theorem occurs_strip (m : List Char) (hm : '@' ∉ m) :
    ∀ y : List Char, Occurs oldPat (m ++ y) → Occurs oldPat y := by
  induction m with
  | nil => intro y h; simpa using h
  | cons a m2 ih =>
    intro y h
    rw [List.cons_append] at h
    rcases (occurs_cons oldPat a (m2 ++ y)).mp h with ⟨t, ht⟩ | h2
    · have : oldPat = '@' :: "ordinarysh/".data := rfl
      rw [this, List.cons_append] at ht
      injection ht with h1 _
      exact absurd (h1 ▸ List.mem_cons_self a m2) hm
    · exact ih (fun hx => hm (List.mem_cons_of_mem a hx)) y h2

/-- If w ++ "/" is a prefix of u ++ "/" ++ y and neither w nor u contains a
slash, the slashes line up, so u equals w. -/
theorem slash_align (w : List Char) (hw : '/' ∉ w) :
    ∀ u y : List Char, '/' ∉ u →
      startsWith (w ++ ['/']) (u ++ '/' :: y) = true → u = w := by
  induction w with
  | nil =>
    intro u y hu h
    cases u with
    | nil => rfl
    | cons a u2 =>
      rw [List.nil_append, List.cons_append, startsWith, Bool.and_eq_true, beq_iff_eq] at h
      exact absurd (h.1 ▸ List.mem_cons_self a u2) hu
  | cons b w2 ih =>
    intro u y hu h
    cases u with
    | nil =>
      rw [List.cons_append, List.nil_append, startsWith, Bool.and_eq_true, beq_iff_eq] at h
      exact absurd (h.1.symm ▸ List.mem_cons_self b w2) hw
    | cons a u2 =>
      rw [List.cons_append, List.cons_append, startsWith, Bool.and_eq_true, beq_iff_eq] at h
      have h2 := ih (fun hx => hw (List.mem_cons_of_mem b hx)) u2 y
        (fun hx => hu (List.mem_cons_of_mem a hx)) h.2
      rw [h.1, h2]

/-- isValidScope's regex tail ([a-z0-9-]*[a-z0-9])? as a decidable scan:
empty, or all characters in [a-z0-9-] with the last one in [a-z0-9]. -/
def scopeTail : List Char → Bool
  | [] => true
  | [c] => isLowerAlnum c
  | c :: cs => isScopeChar c && scopeTail cs

/-- isValidScope (lines 82-84) on the character list of the candidate:
the regex ^[a-z0-9]([a-z0-9-]*[a-z0-9])?$ as an executable checker. -/
def isValidScopeL (l : List Char) : Bool :=
  match l with
  | [] => false
  | c :: cs => isLowerAlnum c && scopeTail cs

/-- isValidScope(scope) at lines 82-84. -/
def isValidScope (scope : String) : Bool := isValidScopeL scope.data

theorem scopeTail_all (l : List Char) (h : scopeTail l = true) :
    ∀ c ∈ l, isScopeChar c = true := by
  induction l with
  | nil => intro c hc; exact absurd hc (List.not_mem_nil c)
  | cons a cs ih =>
    intro c hc
    cases cs with
    | nil =>
      rcases List.mem_singleton.mp hc with rfl
      rw [scopeTail] at h
      simp [isScopeChar, h]
    | cons b cs2 =>
      have h2 : (isScopeChar a && scopeTail (b :: cs2)) = true := h
      rw [Bool.and_eq_true] at h2
      replace h := h2
      rcases List.mem_cons.mp hc with rfl | hc2
      · exact h.1
      · exact ih h.2 c hc2

theorem validScope_all (l : List Char) (h : isValidScopeL l = true) :
    ∀ c ∈ l, isScopeChar c = true := by
  cases l with
  | nil => intro c hc; exact absurd hc (List.not_mem_nil c)
  | cons a cs =>
    rw [isValidScopeL, Bool.and_eq_true] at h
    intro c hc
    rcases List.mem_cons.mp hc with rfl | hc2
    · simp [isScopeChar, h.1]
    · exact scopeTail_all cs h.2 c hc2

theorem scopeChar_not_at {c : Char} (h : isScopeChar c = true) : c ≠ '@' := by
  rintro rfl
  exact absurd h (by decide)

theorem scopeChar_not_slash {c : Char} (h : isScopeChar c = true) : c ≠ '/' := by
  rintro rfl
  exact absurd h (by decide)

theorem scopeChar_not_newline {c : Char} (h : isScopeChar c = true) : c ≠ '\n' := by
  rintro rfl
  exact absurd h (by decide)

/-- For a destination scope made of scope characters and different from the
source scope text "ordinarysh", the output of the global replace contains no
occurrence of the pattern "@ordinarysh/" at all. -/
theorem replaceGo_no_occurs (s : List Char) (hs : ∀ c ∈ s, isScopeChar c = true)
    (hne : s ≠ "ordinarysh".data) (fuel : Nat) :
    ∀ l : List Char, l.length ≤ fuel →
      ¬ Occurs oldPat (replaceGo oldPat ('@' :: (s ++ ['/'])) fuel l) := by
  have hat : '@' ∉ s := fun hm => scopeChar_not_at (hs '@' hm) rfl
  have hsl : '/' ∉ s := fun hm => scopeChar_not_slash (hs '/' hm) rfl
  induction fuel with
  | zero =>
    intro l hl
    have : l = [] := List.length_eq_zero.mp (Nat.le_zero.mp hl)
    subst this
    exact occurs_nil oldPat (by decide)
  | succ fuel ih =>
    intro l hl
    cases l with
    | nil => exact occurs_nil oldPat (by decide)
    | cons c cs =>
      by_cases hsw : startsWith oldPat (c :: cs) = true
      · rcases (startsWith_iff oldPat (c :: cs)).mp hsw with ⟨t, ht⟩
        have hlen : t.length ≤ fuel := by
          have h1 : (c :: cs).length = oldPat.length + t.length := by
            rw [ht, List.length_append]
          simp only [List.length_cons] at h1 hl
          have h2 : oldPat.length = 12 := by decide
          omega
        rw [replaceGo, if_pos hsw, ht, List.drop_left]
        intro hocc
        have hsplit : ('@' :: (s ++ ['/'])) ++ replaceGo oldPat ('@' :: (s ++ ['/'])) fuel t
            = '@' :: (s ++ '/' :: replaceGo oldPat ('@' :: (s ++ ['/'])) fuel t) := by
          simp
        rw [hsplit] at hocc
        rcases (occurs_cons oldPat '@' _).mp hocc with ⟨t2, ht2⟩ | h2
        · have hexp : oldPat ++ t2 = '@' :: (("ordinarysh".data ++ ['/']) ++ t2) := rfl
          rw [hexp] at ht2
          injection ht2 with _ h3
          have hstart : startsWith ("ordinarysh".data ++ ['/'])
              (s ++ '/' :: replaceGo oldPat ('@' :: (s ++ ['/'])) fuel t) = true := by
            rw [startsWith_iff]
            exact ⟨t2, h3⟩
          exact hne (slash_align "ordinarysh".data (by decide) s _ hsl hstart)
        · have hjoin : s ++ '/' :: replaceGo oldPat ('@' :: (s ++ ['/'])) fuel t
              = (s ++ ['/']) ++ replaceGo oldPat ('@' :: (s ++ ['/'])) fuel t := by
            simp
          rw [hjoin] at h2
          have hmat : '@' ∉ s ++ ['/'] := by
            intro hm
            rcases List.mem_append.mp hm with hm1 | hm2
            · exact hat hm1
            · rcases List.mem_singleton.mp hm2 with h
              exact absurd h (by decide)
          exact ih t hlen (occurs_strip (s ++ ['/']) hmat _ h2)
      · rw [replaceGo, if_neg hsw]
        intro hocc
        have hcl : cs.length ≤ fuel := by
          simp only [List.length_cons] at hl; omega
        rcases (occurs_cons oldPat c _).mp hocc with ⟨t2, ht2⟩ | h2
        · have hexp : oldPat ++ t2 = '@' :: ("ordinarysh/".data ++ t2) := rfl
          rw [hexp] at ht2
          injection ht2 with h1 h3
          have hstart : startsWith "ordinarysh/".data
              (replaceGo oldPat ('@' :: (s ++ ['/'])) fuel cs) = true := by
            rw [startsWith_iff]; exact ⟨t2, h3⟩
          have hcs : startsWith "ordinarysh/".data cs = true :=
            startsWith_replaceGo (s ++ ['/']) fuel cs "ordinarysh/".data
              (by decide) (by decide) hstart
          rcases (startsWith_iff _ cs).mp hcs with ⟨t3, ht3⟩
          have hexp2 : oldPat ++ t3 = '@' :: ("ordinarysh/".data ++ t3) := rfl
          have : startsWith oldPat (c :: cs) = true := by
            rw [startsWith_iff]
            exact ⟨t3, by rw [hexp2, h1, ht3]⟩
          exact hsw this
        · exact ih cs hcl h2

theorem string_mk_data (s : String) : String.mk s.data = s := by
  cases s
  rfl

theorem string_eq_of_data_eq {s t : String} (h : s.data = t.data) : s = t := by
  cases s
  cases t
  exact congrArg String.mk h

/-- Replacing with the replacement text built from the source scope itself
("@ordinarysh/" for "@ordinarysh/") returns the content unchanged. -/
theorem replaceReferences_source (c : String) :
    replaceReferences c "ordinarysh" = c := by
  by_cases hc : c = ""
  · simp [replaceReferences, hc]
  · have hrep : repChars "ordinarysh" = oldPat := by decide
    simp only [replaceReferences, hrep]
    rw [if_neg hc]
    rw [replaceGo_self oldPat (by decide) c.data.length c.data (le_refl _)]

/-- Contents with no occurrence of the pattern are fixed points of
replaceReferences. -/
theorem replaceReferences_of_not_occurs (c s : String)
    (h : ¬ Occurs oldPat c.data) : replaceReferences c s = c := by
  by_cases hc : c = ""
  · simp [replaceReferences, hc]
  · simp only [replaceReferences]
    rw [if_neg hc]
    rw [replaceGo_of_not_occurs _ _ _ _ h]

/-- C3: for every content string containing zero occurrences of the
old-prefix pattern "@ordinarysh/" (the literal replaced at line 124),
replaceReferences returns the content unchanged — the identity law. -/
theorem C3_no_match_identity (c s : String)
    (h : hasOccur oldPat c.data = false) :
    replaceReferences c s = c := by
  apply replaceReferences_of_not_occurs
  intro ho
  rw [← hasOccur_iff, h] at ho
  exact Bool.false_ne_true ho

theorem C3_no_match_identity_witness :
    hasOccur oldPat "lorem ipsum dolor sit amet".data = false ∧
    replaceReferences "lorem ipsum dolor sit amet" "myorg" = "lorem ipsum dolor sit amet" :=
  ⟨by decide, C3_no_match_identity _ _ (by decide)⟩

/-- C4: for every content string and every destination scope satisfying the
scope-name predicate, applying replaceReferences twice with the same
destination scope equals applying it once. -/
theorem C4_replace_idempotent (c s : String) (h : isValidScope s = true) :
    replaceReferences (replaceReferences c s) s = replaceReferences c s := by
  by_cases hs9 : s = "ordinarysh"
  · subst hs9
    rw [replaceReferences_source c]
    exact replaceReferences_source c
  · by_cases hc : c = ""
    · rw [hc]
      have h0 : replaceReferences "" s = "" := by simp [replaceReferences]
      rw [h0]
      exact h0
    · have hdne : s.data ≠ "ordinarysh".data := fun hd => hs9 (string_eq_of_data_eq hd)
      have hall : ∀ x ∈ s.data, isScopeChar x = true := validScope_all s.data h
      have hnocc : ¬ Occurs oldPat (replaceReferences c s).data := by
        simp only [replaceReferences]
        rw [if_neg hc]
        exact replaceGo_no_occurs s.data hall hdne c.data.length c.data (le_refl _)
      exact replaceReferences_of_not_occurs _ s hnocc

theorem C4_replace_idempotent_witness :
    isValidScope "myorg" = true ∧
    replaceReferences (replaceReferences "use @ordinarysh/ui now" "myorg") "myorg"
      = replaceReferences "use @ordinarysh/ui now" "myorg" :=
  ⟨by decide, C4_replace_idempotent _ _ (by decide)⟩

/-- Fuel-indexed scan for the global match content.match(/@ordinarysh\/[\w-]+/g)
at lines 114-115 (also line 166): at each position, if the literal prefix
matches and is followed by at least one [\w-] character, the maximal-munch
match "@ordinarysh/" ++ run is emitted and scanning resumes after it;
otherwise scanning advances one character. -/
def matchGo : Nat → List Char → List (List Char)
  | _, [] => []
  | 0, _ => []
  | fuel + 1, c :: cs =>
    if startsWith oldPat (c :: cs) then
      if List.takeWhile isWordDash (List.drop oldPat.length (c :: cs)) = [] then
        matchGo fuel cs
      else
        (oldPat ++ List.takeWhile isWordDash (List.drop oldPat.length (c :: cs)))
          :: matchGo fuel (List.dropWhile isWordDash (List.drop oldPat.length (c :: cs)))
    else
      matchGo fuel cs

/-- Order-preserving deduplication, the semantics of the insertion-ordered
[...new Set(matches)] at line 116. -/
def dedupGo (seen : List (List Char)) : List (List Char) → List (List Char)
  | [] => []
  | x :: xs => if x ∈ seen then dedupGo seen xs else x :: dedupGo (x :: seen) xs

/-- findReferences(content) at lines 111-117: empty content yields no
matches; otherwise all matches of the pattern, deduplicated keeping first
occurrences. -/
def findReferences (content : String) : List (List Char) :=
  if content = "" then []
  else dedupGo [] (matchGo content.data.length content.data)

/-- countFileReferences(content) at lines 164-169: the raw, non-deduplicated
number of matches of the pattern. -/
def countFileReferences (content : String) : Nat :=
  if content = "" then 0
  else (matchGo content.data.length content.data).length

/-- A list with no occurrence of the literal pattern has no match of the
longer pattern either: the match scan returns the empty list. -/
theorem matchGo_of_not_occurs (fuel : Nat) :
    ∀ l : List Char, ¬ Occurs oldPat l → matchGo fuel l = [] := by
  induction fuel with
  | zero => intro l _; cases l <;> rfl
  | succ fuel ih =>
    intro l h
    cases l with
    | nil => rfl
    | cons c cs =>
      have hnp : ¬ startsWith oldPat (c :: cs) = true := by
        intro hsw
        rcases (startsWith_iff oldPat (c :: cs)).mp hsw with ⟨t, ht⟩
        exact h ⟨[], t, by simpa using ht⟩
      have hcs : ¬ Occurs oldPat cs := fun ho =>
        h ((occurs_cons oldPat c cs).mpr (Or.inr ho))
      show matchGo (fuel + 1) (c :: cs) = []
      rw [matchGo, if_neg hnp]
      exact ih cs hcs

/-- C5: for every content string and every destination scope that satisfies
the scope-name predicate and differs from the source scope "ordinarysh",
the rewritten content has no occurrence of the match pattern: findReferences
on the output of replaceReferences is empty, so a second run finds zero
references. -/
theorem C5_second_run_finds_nothing (c s : String)
    (hv : isValidScope s = true) (hne : s ≠ "ordinarysh") :
    findReferences (replaceReferences c s) = [] := by
  by_cases hc : c = ""
  · simp [replaceReferences, hc, findReferences]
  · have hdne : s.data ≠ "ordinarysh".data := fun hd => hne (string_eq_of_data_eq hd)
    have hall : ∀ x ∈ s.data, isScopeChar x = true := validScope_all s.data hv
    have hnocc : ¬ Occurs oldPat (replaceReferences c s).data := by
      simp only [replaceReferences]
      rw [if_neg hc]
      exact replaceGo_no_occurs s.data hall hdne c.data.length c.data (le_refl _)
    by_cases hs0 : replaceReferences c s = ""
    · simp [findReferences, hs0]
    · rw [findReferences, if_neg hs0,
        matchGo_of_not_occurs (replaceReferences c s).data.length _ hnocc]
      rfl

theorem C5_second_run_finds_nothing_witness :
    isValidScope "myorg" = true ∧ "myorg" ≠ "ordinarysh" ∧
    findReferences (replaceReferences "dep: \x22@ordinarysh/ui\x22" "myorg") = [] :=
  ⟨by decide, by decide, C5_second_run_finds_nothing _ _ (by decide) (by decide)⟩

/-- Concrete content in which the same matched reference text occurs twice,
used to separate the raw match count from the deduplicated one. -/
def dupContent : String := "import \x22@ordinarysh/ui\x22; export \x22@ordinarysh/ui\x22"

/-- Outcome of attempting to read one candidate file: readable content, a
missing file (the ENOENT case of lines 93-95), or a read failure with any
other error code (the rethrow of line 96). -/
inductive ReadResult where
  | ok (content : String)
  | enoent
  | fail
deriving DecidableEq

/-- One file of the repository as the tool sees it: its path, what reading
it yields, and whether a write to it would succeed. -/
structure RepoFile where
  path : String
  res : ReadResult
  wOk : Bool
deriving DecidableEq

/-- readFileContent (lines 89-98): returns the content, returns null when
the error code is ENOENT, and rethrows every other error. -/
def readFileContent : ReadResult → Except Unit (Option String)
  | .ok c => Except.ok (some c)
  | .enoent => Except.ok none
  | .fail => Except.error ()

/-- A finding (lines 142-147): one scanned file containing at least one
match, with its path, verbatim content and deduplicated reference list. -/
structure Finding where
  file : String
  content : String
  references : List (List Char)
deriving DecidableEq

/-- scanFiles (lines 130-152) over an explicit candidate list: a read error
propagates; null or empty content is skipped; files whose deduplicated
reference list is nonempty produce findings in order. -/
def scanFiles : List RepoFile → Except Unit (List Finding)
  | [] => Except.ok []
  | f :: rest =>
    match readFileContent f.res with
    | Except.error e => Except.error e
    | Except.ok none => scanFiles rest
    | Except.ok (some c) =>
      if c = "" then scanFiles rest
      else if findReferences c = [] then scanFiles rest
      else
        match scanFiles rest with
        | Except.error e => Except.error e
        | Except.ok fnds =>
          Except.ok ({ file := f.path, content := c, references := findReferences c } :: fnds)

/-- countReferences (lines 157-159): total of the per-finding deduplicated
reference-list lengths. -/
def countReferences (findings : List Finding) : Nat :=
  findings.foldl (fun sum f => sum + f.references.length) 0

/-- Whether a write to path would succeed on this filesystem: determined by
the target file's write flag, and true for a path not present (writeFileSync
creates it). -/
def writable : List RepoFile → String → Bool
  | [], _ => true
  | f :: rest, p => if f.path = p then f.wOk else writable rest p

/-- The filesystem after a successful write of content to path: the target
file's content is replaced wholesale; an absent path is created. -/
def writeFs : List RepoFile → String → String → List RepoFile
  | [], p, c => [{ path := p, res := ReadResult.ok c, wOk := true }]
  | f :: rest, p, c =>
    if f.path = p then { path := p, res := ReadResult.ok c, wOk := f.wOk } :: rest
    else f :: writeFs rest p c

/-- writeFileContent (lines 103-106): a no-op in dry-run mode, otherwise an
in-place overwrite that throws when the write fails; the error carries the
on-disk state at the moment of the throw. -/
def writeFileContent (dryRun : Bool) (fs : List RepoFile) (p c : String) :
    Except (List RepoFile) (List RepoFile) :=
  if dryRun then Except.ok fs
  else if writable fs p then Except.ok (writeFs fs p c)
  else Except.error fs

/-- applyRenaming (lines 174-184): write each finding's rewritten content to
its path in order, counting the files written; a write error propagates and
aborts the remaining writes. -/
def applyRenaming (dryRun : Bool) (scope : String) :
    List Finding → List RepoFile → Except (List RepoFile) (Nat × List RepoFile)
  | [], fs => Except.ok (0, fs)
  | f :: rest, fs =>
    match writeFileContent dryRun fs f.file (replaceReferences f.content scope) with
    | Except.error e => Except.error e
    | Except.ok fs2 =>
      match applyRenaming dryRun scope rest fs2 with
      | Except.error e => Except.error e
      | Except.ok (n, fs3) => Except.ok (n + 1, fs3)

/-- The filesystem after writing every finding's rewritten content in order
(the effect of a fully successful applyRenaming). -/
def writeAll (scope : String) : List Finding → List RepoFile → List RepoFile
  | [], fs => fs
  | f :: rest, fs => writeAll scope rest (writeFs fs f.file (replaceReferences f.content scope))

/-- promptForScope (lines 189-220) over the remaining stdin lines: re-asks
while the trimmed input is empty or fails validation, and returns the
accepted trimmed scope together with the unconsumed lines; none models
blocking forever on exhausted input. -/
def promptForScope : List (List Char) → Option (List Char × List (List Char))
  | [] => none
  | line :: rest =>
    if trimList line = [] then promptForScope rest
    else if isValidScopeL (trimList line) = false then promptForScope rest
    else some (trimList line, rest)

/-- promptConfirmation (lines 225-251) over the remaining stdin lines: the
trimmed, lowercased answer yields false on empty, "n" or "no", true on "y"
or "yes", and a re-ask otherwise. -/
def promptConfirmation : List (List Char) → Option (Bool × List (List Char))
  | [] => none
  | line :: rest =>
    if List.map Char.toLower (trimList line) = [] ∨
        List.map Char.toLower (trimList line) = ['n'] ∨
        List.map Char.toLower (trimList line) = "no".data then
      some (false, rest)
    else if List.map Char.toLower (trimList line) = ['y'] ∨
        List.map Char.toLower (trimList line) = "yes".data then
      some (true, rest)
    else promptConfirmation rest

/-- The tail of main from line 286 on, once findings exist, the mode is not
dry-run and a candidate destination scope has been resolved: validate it
(exit 1 on failure), short-circuit when it equals the source scope (exit 0),
then confirm (default no) and either cancel or apply, mapping a propagated
write error to the top-level catch of lines 341-344 (exit 1). -/
def mainApply (findings : List Finding) (files : List RepoFile)
    (stdin : List (List Char)) (scope : String) : Option (Nat × List RepoFile) :=
  if isValidScope scope = false then some (1, files)
  else if scope = "ordinarysh" then some (0, files)
  else
    match promptConfirmation stdin with
    | none => none
    | some (false, _) => some (0, files)
    | some (true, _) =>
      match applyRenaming false scope findings files with
      | Except.error efs => some (1, efs)
      | Except.ok (_, fs2) => some (0, fs2)

/-- main (lines 256-339) with the top-level catch (lines 341-344): returns
the exit status and the final filesystem; none models blocking forever on
exhausted interactive input.  A scan error is caught at the top level (exit
1); zero findings exit 0; dry-run mode reports and exits 0; otherwise the
destination scope comes from the CLI argument when present and truthy, else
from the interactive prompt. -/
def mainRun (dryRun : Bool) (cliScope : Option String) (files : List RepoFile)
    (stdin : List (List Char)) : Option (Nat × List RepoFile) :=
  match scanFiles files with
  | Except.error _ => some (1, files)
  | Except.ok findings =>
    if findings.length = 0 then some (0, files)
    else if dryRun then some (0, files)
    else
      match cliScope with
      | some s =>
        if s = "" then
          match promptForScope stdin with
          | none => none
          | some (sc, rest) => mainApply findings files rest (String.mk sc)
        else mainApply findings files stdin s
      | none =>
        match promptForScope stdin with
        | none => none
        | some (sc, rest) => mainApply findings files rest (String.mk sc)

/-- One-file candidate list holding content with a repeated reference. -/
def dupFiles : List RepoFile :=
  [{ path := "packages/ui/package.json", res := ReadResult.ok dupContent, wOk := true }]

/-- The findings the scan stage produces on dupFiles. -/
def dupFindings : List Finding :=
  [{ file := "packages/ui/package.json", content := dupContent,
     references := findReferences dupContent }]

/-- C10: there is content — any content repeating the same matched reference
text — on which countFileReferences strictly exceeds the length of the
deduplicated findReferences list, so in preview mode the per-file printed
counts (line 273) can sum to more than the reported total (line 267), which
sums the deduplicated reference lists. -/
theorem C10_raw_count_exceeds_dedup :
    countFileReferences dupContent > (findReferences dupContent).length ∧
    scanFiles dupFiles = Except.ok dupFindings ∧
    (List.map (fun f => countFileReferences f.content) dupFindings).sum >
      countReferences dupFindings := by
  refine ⟨by decide, rfl, by decide⟩

/-- C1: with --check or --dry-run set, the run never mutates any file — the
returned filesystem is exactly the input one, whatever the scan produced —
and whenever the scan succeeds (however many findings it yields) the run
reports and exits with status 0. -/
theorem C1_preview_never_mutates (cliScope : Option String) (files : List RepoFile)
    (stdin : List (List Char)) :
    (∃ code, mainRun true cliScope files stdin = some (code, files)) ∧
    (∀ fnds, scanFiles files = Except.ok fnds →
      mainRun true cliScope files stdin = some (0, files)) := by
  cases hscan : scanFiles files with
  | error e =>
    constructor
    · exact ⟨1, by simp only [mainRun, hscan]⟩
    · intro fnds h
      exact Except.noConfusion h
  | ok fnds =>
    have hmain : mainRun true cliScope files stdin = some (0, files) := by
      by_cases h0 : fnds.length = 0
      · simp [mainRun, hscan, h0]
      · simp [mainRun, hscan, h0]
    exact ⟨⟨0, hmain⟩, fun _ _ => hmain⟩

theorem C1_preview_never_mutates_witness :
    scanFiles dupFiles = Except.ok dupFindings ∧
    mainRun true none dupFiles [] = some (0, dupFiles) :=
  ⟨rfl, (C1_preview_never_mutates none dupFiles []).2 dupFindings rfl⟩

/-- Candidate list whose first file fails to read with a non-ENOENT error
while the second file is readable and contains references. -/
def failFiles : List RepoFile :=
  [{ path := "packages/ui/package.json", res := ReadResult.fail, wOk := true },
   { path := "packages/ui/tsconfig.json", res := ReadResult.ok dupContent, wOk := true }]

/-- C2 counterexample: a candidate file whose read fails with an error other
than ENOENT is not skipped silently — the scan aborts with the propagated
error, never reaching the readable file after it, and the whole run exits
with status 1 instead of continuing. -/
theorem C2_counterexample_fail_aborts :
    scanFiles failFiles = Except.error () ∧
    mainRun true none failFiles [] = some (1, failFiles) := ⟨rfl, rfl⟩

/-- C2 amended: a candidate file that does not exist (read fails with
ENOENT) is skipped silently, treated as having no content, and the scan
continues with the remaining files; a read failure with any other error
code propagates and aborts the scan. -/
theorem C2_enoent_skipped_fail_propagates (p : String) (w : Bool) (rest : List RepoFile) :
    scanFiles ({ path := p, res := ReadResult.enoent, wOk := w } :: rest) = scanFiles rest ∧
    scanFiles ({ path := p, res := ReadResult.fail, wOk := w } :: rest) = Except.error () :=
  ⟨rfl, rfl⟩

/-- Cancellation path of mainApply when the first confirmation answer trims
to the empty string: the run reports and exits without writing. -/
theorem mainApply_cancel (fnds : List Finding) (files : List RepoFile)
    (line : List Char) (rest : List (List Char)) (s : String)
    (hline : trimList line = []) :
    ∃ code, mainApply fnds files (line :: rest) s = some (code, files) := by
  by_cases hv : isValidScope s = false
  · exact ⟨1, by simp only [mainApply]; rw [if_pos hv]⟩
  · by_cases h9 : s = "ordinarysh"
    · refine ⟨0, ?_⟩
      simp only [mainApply]
      rw [if_neg hv, if_pos h9]
    · refine ⟨0, ?_⟩
      have h1 : List.map Char.toLower (trimList line) = [] := by
        rw [hline]; rfl
      have hconf : promptConfirmation (line :: rest) = some (false, rest) := by
        simp only [promptConfirmation]
        rw [if_pos (Or.inl h1)]
      simp only [mainApply]
      rw [if_neg hv, if_neg h9, hconf]

/-- C7: the confirmation prompt, after trimming and lowercasing the input
line, returns false for the empty string, "n" or "no", returns true for "y"
or "yes", and re-asks on any other input; in particular a blank answer is
treated as no, so with a CLI-supplied scope a blank confirmation never
leads to files being written. -/
theorem C7_confirmation_semantics :
    (∀ (line : List Char) (rest : List (List Char)),
      (List.map Char.toLower (trimList line) = [] ∨
        List.map Char.toLower (trimList line) = ['n'] ∨
        List.map Char.toLower (trimList line) = "no".data) →
      promptConfirmation (line :: rest) = some (false, rest)) ∧
    (∀ (line : List Char) (rest : List (List Char)),
      (List.map Char.toLower (trimList line) = ['y'] ∨
        List.map Char.toLower (trimList line) = "yes".data) →
      promptConfirmation (line :: rest) = some (true, rest)) ∧
    (∀ (line : List Char) (rest : List (List Char)),
      ¬ (List.map Char.toLower (trimList line) = [] ∨
        List.map Char.toLower (trimList line) = ['n'] ∨
        List.map Char.toLower (trimList line) = "no".data) →
      ¬ (List.map Char.toLower (trimList line) = ['y'] ∨
        List.map Char.toLower (trimList line) = "yes".data) →
      promptConfirmation (line :: rest) = promptConfirmation rest) ∧
    (∀ (s : String) (files : List RepoFile) (line : List Char) (rest : List (List Char)),
      s ≠ "" → trimList line = [] →
      ∃ code, mainRun false (some s) files (line :: rest) = some (code, files)) := by
  refine ⟨?_, ?_, ?_, ?_⟩
  · intro line rest h
    simp only [promptConfirmation]
    rw [if_pos h]
  · intro line rest h
    have hne : ¬ (List.map Char.toLower (trimList line) = [] ∨
        List.map Char.toLower (trimList line) = ['n'] ∨
        List.map Char.toLower (trimList line) = "no".data) := by
      intro hcon
      rcases h with h | h <;> rcases hcon with h2 | h2 | h2 <;>
        (rw [h] at h2; exact absurd h2 (by decide))
    simp only [promptConfirmation]
    rw [if_neg hne, if_pos h]
  · intro line rest h1 h2
    simp only [promptConfirmation]
    rw [if_neg h1, if_neg h2]
  · intro s files line rest hs hline
    cases hscan : scanFiles files with
    | error e => exact ⟨1, by simp only [mainRun, hscan]⟩
    | ok fnds =>
      by_cases h0 : fnds.length = 0
      · refine ⟨0, ?_⟩
        simp only [mainRun, hscan]
        rw [if_pos h0]
      · rcases mainApply_cancel fnds files line rest s hline with ⟨code, hcode⟩
        refine ⟨code, ?_⟩
        simp [mainRun, hscan, h0, hs, hcode]

theorem C7_confirmation_semantics_witness :
    promptConfirmation (" NO ".data :: []) = some (false, []) ∧
    promptConfirmation ("Yes".data :: []) = some (true, []) ∧
    promptConfirmation ("maybe".data :: "y".data :: []) =
      promptConfirmation ("y".data :: []) ∧
    ∃ code, mainRun false (some "myorg") dupFiles (" ".data :: []) = some (code, dupFiles) :=
  ⟨C7_confirmation_semantics.1 _ _ (Or.inr (Or.inr (by decide))),
   C7_confirmation_semantics.2.1 _ _ (Or.inr (by decide)),
   C7_confirmation_semantics.2.2.1 _ _ (by decide) (by decide),
   C7_confirmation_semantics.2.2.2 "myorg" dupFiles _ _ (by decide) (by decide)⟩

/-- Overwriting a file's content never changes which paths are writable. -/
theorem writable_writeFs (fs : List RepoFile) (p c q : String) :
    writable (writeFs fs p c) q = writable fs q := by
  induction fs with
  | nil =>
    simp only [writeFs, writable]
    by_cases h : p = q
    · rw [if_pos h]
    · rw [if_neg h]
  | cons f rest ih =>
    simp only [writeFs]
    by_cases h : f.path = p
    · rw [if_pos h]
      simp only [writable, h]
    · rw [if_neg h]
      simp only [writable, ih]

/-- When every finding's path is writable, applyRenaming succeeds, writes
all findings in order and returns the number of findings. -/
theorem applyRenaming_success (scope : String) :
    ∀ (findings : List Finding) (fs : List RepoFile),
      (∀ f ∈ findings, writable fs f.file = true) →
      applyRenaming false scope findings fs =
        Except.ok (findings.length, writeAll scope findings fs) := by
  intro findings
  induction findings with
  | nil => intro fs _; rfl
  | cons f rest ih =>
    intro fs hall
    have hw : writable fs f.file = true := hall f (List.mem_cons_self f rest)
    have hrest : ∀ g ∈ rest, writable (writeFs fs f.file (replaceReferences f.content scope)) g.file = true := by
      intro g hg
      rw [writable_writeFs]
      exact hall g (List.mem_cons_of_mem f hg)
    simp [applyRenaming, writeFileContent, hw, ih _ hrest, writeAll]

/-- When an unwritable finding follows writable ones, applyRenaming aborts
with the propagated error, and the error state still contains every write
performed before the failure (no rollback). -/
theorem applyRenaming_fail (scope : String) (bad : Finding) (post : List Finding) :
    ∀ (pre : List Finding) (fs : List RepoFile),
      (∀ f ∈ pre, writable fs f.file = true) →
      writable fs bad.file = false →
      applyRenaming false scope (pre ++ bad :: post) fs =
        Except.error (writeAll scope pre fs) := by
  intro pre
  induction pre with
  | nil =>
    intro fs _ hbad
    simp [applyRenaming, writeFileContent, hbad, writeAll]
  | cons p pre2 ih =>
    intro fs hall hbad
    have hw : writable fs p.file = true := hall p (List.mem_cons_self p pre2)
    have hpre2 : ∀ g ∈ pre2, writable (writeFs fs p.file (replaceReferences p.content scope)) g.file = true := by
      intro g hg
      rw [writable_writeFs]
      exact hall g (List.mem_cons_of_mem p hg)
    have hbad2 : writable (writeFs fs p.file (replaceReferences p.content scope)) bad.file = false := by
      rw [writable_writeFs]
      exact hbad
    simp [applyRenaming, writeFileContent, hw, ih _ hpre2 hbad2, writeAll]

/-- C8: applyRenaming writes each finding's rewritten content to the
finding's path; when every write succeeds the returned count equals the
number of findings; a failing write propagates its error, leaving the files
written before the failure modified (no rollback), and the top level maps
the propagated error to a report and a non-zero exit status. -/
theorem C8_apply_write_policy :
    (∀ (scope : String) (findings : List Finding) (fs : List RepoFile),
      (∀ f ∈ findings, writable fs f.file = true) →
      applyRenaming false scope findings fs =
        Except.ok (findings.length, writeAll scope findings fs)) ∧
    (∀ (scope : String) (pre : List Finding) (bad : Finding) (post : List Finding)
        (fs : List RepoFile),
      (∀ f ∈ pre, writable fs f.file = true) →
      writable fs bad.file = false →
      applyRenaming false scope (pre ++ bad :: post) fs =
        Except.error (writeAll scope pre fs)) ∧
    (∀ (s : String) (files efs : List RepoFile) (fnds : List Finding)
        (line : List Char) (rest : List (List Char)),
      scanFiles files = Except.ok fnds → fnds.length ≠ 0 →
      s ≠ "" → isValidScope s = true → s ≠ "ordinarysh" →
      List.map Char.toLower (trimList line) = ['y'] →
      applyRenaming false s fnds files = Except.error efs →
      mainRun false (some s) files (line :: rest) = some (1, efs)) := by
  refine ⟨fun scope => applyRenaming_success scope,
    fun scope pre bad post => applyRenaming_fail scope bad post pre, ?_⟩
  intro s files efs fnds line rest hscan hlen hs hv h9 hy happly
  have hnv : ¬ isValidScope s = false := by
    rw [hv]
    exact fun hx => absurd hx (by decide)
  have hne1 : ¬ (List.map Char.toLower (trimList line) = [] ∨
      List.map Char.toLower (trimList line) = ['n'] ∨
      List.map Char.toLower (trimList line) = "no".data) := by
    intro hcon
    rcases hcon with h2 | h2 | h2 <;> (rw [hy] at h2; exact absurd h2 (by decide))
  have hconf : promptConfirmation (line :: rest) = some (true, rest) := by
    simp only [promptConfirmation]
    rw [if_neg hne1, if_pos (Or.inl hy)]
  have happ : mainApply fnds files (line :: rest) s = some (1, efs) := by
    simp only [mainApply]
    rw [if_neg hnv, if_neg h9, hconf]
    simp only [happly]
  simp [mainRun, hscan, hlen, hs, happ]

/-- First finding of the two-file write scenario. -/
def c8f1 : Finding :=
  { file := "packages/ui/package.json", content := dupContent,
    references := findReferences dupContent }

/-- Second finding of the two-file write scenario, whose file is not
writable. -/
def c8f2 : Finding :=
  { file := "packages/eslint-config/package.json", content := dupContent,
    references := findReferences dupContent }

/-- Two candidate files with references, the second one unwritable. -/
def c8files : List RepoFile :=
  [{ path := "packages/ui/package.json", res := ReadResult.ok dupContent, wOk := true },
   { path := "packages/eslint-config/package.json", res := ReadResult.ok dupContent, wOk := false }]

/-- One writable candidate file with references. -/
def c8okFiles : List RepoFile :=
  [{ path := "packages/ui/package.json", res := ReadResult.ok dupContent, wOk := true }]

theorem C8_apply_write_policy_witness :
    applyRenaming false "myorg" [c8f1] c8okFiles =
      Except.ok (1, writeAll "myorg" [c8f1] c8okFiles) ∧
    applyRenaming false "myorg" [c8f1, c8f2] c8files =
      Except.error (writeAll "myorg" [c8f1] c8files) ∧
    mainRun false (some "myorg") c8files ("y".data :: []) =
      some (1, writeAll "myorg" [c8f1] c8files) :=
  ⟨C8_apply_write_policy.1 "myorg" [c8f1] c8okFiles (by decide),
   C8_apply_write_policy.2.1 "myorg" [c8f1] c8f2 [] c8files (by decide) (by decide),
   C8_apply_write_policy.2.2 "myorg" c8files (writeAll "myorg" [c8f1] c8files)
     [c8f1, c8f2] "y".data [] rfl (by decide) (by decide) (by decide) (by decide)
     (by decide)
     (C8_apply_write_policy.2.1 "myorg" [c8f1] c8f2 [] c8files (by decide) (by decide))⟩

/-- content.split(newline) as used by the diff preview (lines 302-303). -/
def splitLines : List Char → List (List Char)
  | [] => [[]]
  | c :: cs =>
    if c = '\n' then [] :: splitLines cs
    else
      match splitLines cs with
      | [] => [[c]]
      | x :: xs => (c :: x) :: xs

/-- The diff preview loop of lines 307-312: for every index of the old line
list, when the entry differs from the same index of the new line list
(which is missing when the new list is shorter), emit the printed old/new
pair. -/
def previewPairs (oldL newL : List (List Char)) : List (List Char × Option (List Char)) :=
  (List.range oldL.length).filterMap fun i =>
    if oldL[i]? ≠ newL[i]? then some (oldL.getD i [], newL[i]?) else none

/-- Number of newline characters in a character list. -/
def countNl : List Char → Nat
  | [] => 0
  | c :: cs => (if c = '\n' then 1 else 0) + countNl cs

theorem countNl_append (a b : List Char) :
    countNl (a ++ b) = countNl a + countNl b := by
  induction a with
  | nil => simp [countNl]
  | cons c cs ih => simp [countNl, ih, Nat.add_assoc]

theorem countNl_eq_zero (l : List Char) (h : ∀ c ∈ l, c ≠ '\n') : countNl l = 0 := by
  induction l with
  | nil => rfl
  | cons c cs ih =>
    have hc : c ≠ '\n' := h c (List.mem_cons_self c cs)
    simp only [countNl, if_neg hc, Nat.zero_add]
    exact ih fun x hx => h x (List.mem_cons_of_mem c hx)

theorem splitLines_ne_nil (l : List Char) : splitLines l ≠ [] := by
  cases l with
  | nil => simp [splitLines]
  | cons c cs =>
    simp only [splitLines]
    by_cases h : c = '\n'
    · rw [if_pos h]; simp
    · rw [if_neg h]
      cases hx : splitLines cs <;> simp

theorem splitLines_length (l : List Char) :
    (splitLines l).length = countNl l + 1 := by
  induction l with
  | nil => rfl
  | cons c cs ih =>
    simp only [splitLines, countNl]
    by_cases h : c = '\n'
    · rw [if_pos h, if_pos h]
      simp only [List.length_cons, ih]
      omega
    · rw [if_neg h, if_neg h]
      cases hx : splitLines cs with
      | nil => exact absurd hx (splitLines_ne_nil cs)
      | cons x xs =>
        rw [hx] at ih
        simp only [List.length_cons] at ih
        simp only [List.length_cons]
        omega

/-- The global replace preserves the newline count when neither the pattern
nor the replacement text contains a newline. -/
theorem countNl_replaceGo (pat rep : List Char) (hpat : countNl pat = 0)
    (hrep : countNl rep = 0) (hp : pat ≠ []) (fuel : Nat) :
    ∀ l : List Char, l.length ≤ fuel →
      countNl (replaceGo pat rep fuel l) = countNl l := by
  induction fuel with
  | zero => intro l _; cases l <;> rfl
  | succ fuel ih =>
    intro l hl
    cases l with
    | nil => rfl
    | cons c cs =>
      by_cases hsw : startsWith pat (c :: cs) = true
      · rcases (startsWith_iff pat (c :: cs)).mp hsw with ⟨t, ht⟩
        have hlen : t.length ≤ fuel := by
          have h1 : (c :: cs).length = pat.length + t.length := by
            rw [ht, List.length_append]
          have h2 : 1 ≤ pat.length := List.length_pos.mpr hp
          simp only [List.length_cons] at h1 hl
          omega
        show countNl (replaceGo pat rep (fuel + 1) (c :: cs)) = countNl (c :: cs)
        rw [replaceGo, if_pos hsw, ht, List.drop_left, countNl_append, ih t hlen,
          countNl_append, hpat, hrep]
      · show countNl (replaceGo pat rep (fuel + 1) (c :: cs)) = countNl (c :: cs)
        rw [replaceGo, if_neg hsw]
        have hcl : cs.length ≤ fuel := by
          simp only [List.length_cons] at hl; omega
        simp only [countNl, ih cs hcl]

theorem previewPairs_cons (o n : List Char) (os ns : List (List Char)) :
    previewPairs (o :: os) (n :: ns) =
      if o = n then previewPairs os ns else (o, some n) :: previewPairs os ns := by
  have htail : List.filterMap ((fun i =>
        if (o :: os)[i]? ≠ (n :: ns)[i]? then some ((o :: os).getD i [], (n :: ns)[i]?)
        else none) ∘ Nat.succ) (List.range os.length) = previewPairs os ns := by
    apply List.filterMap_congr
    intro i _
    simp [Function.comp, List.getD]
  simp only [previewPairs, List.length_cons, List.range_succ_eq_map, List.filterMap_cons,
    List.filterMap_map, htail]
  by_cases h : o = n
  · rw [if_pos h]
    have h0 : (if (o :: os)[0]? ≠ (n :: ns)[0]? then
        some ((o :: os).getD 0 [], (n :: ns)[0]?) else none) = none := by
      simp [h]
    rw [h0]
  · rw [if_neg h]
    have h0 : (if (o :: os)[0]? ≠ (n :: ns)[0]? then
        some ((o :: os).getD 0 [], (n :: ns)[0]?) else none) = some (o, some n) := by
      simp [h, List.getD]
    rw [h0]

/-- On line lists of equal length, the index-driven preview loop prints
exactly one pair per differing index: it agrees with filtering the zipped
lines for inequality. -/
theorem previewPairs_eq_zip (oldL newL : List (List Char)) (h : oldL.length = newL.length) :
    previewPairs oldL newL =
      (oldL.zip newL).filterMap
        (fun p => if p.1 ≠ p.2 then some (p.1, some p.2) else none) := by
  induction oldL generalizing newL with
  | nil =>
    cases newL with
    | nil => simp [previewPairs]
    | cons n ns => simp at h
  | cons o os ih =>
    cases newL with
    | nil => simp at h
    | cons n ns =>
      have hlen : os.length = ns.length := by
        simp only [List.length_cons] at h
        omega
      rw [previewPairs_cons, List.zip_cons_cons, List.filterMap_cons]
      by_cases hon : o = n
      · rw [if_pos hon, ih ns hlen]
        simp [hon]
      · rw [if_neg hon, ih ns hlen]
        simp [hon]

/-- C9: for every content string and every valid destination scope, the
replacement never changes the number of lines of the content, so the
index-aligned diff preview prints exactly one old/new pair for each line
index where the old and rewritten content differ, and nothing for identical
lines — it equals the zip of the two line lists filtered for inequality. -/
theorem C9_diff_preview_line_aligned (c s : String) (h : isValidScope s = true) :
    (splitLines (replaceReferences c s).data).length = (splitLines c.data).length ∧
    previewPairs (splitLines c.data) (splitLines (replaceReferences c s).data) =
      ((splitLines c.data).zip (splitLines (replaceReferences c s).data)).filterMap
        (fun p => if p.1 ≠ p.2 then some (p.1, some p.2) else none) := by
  have hlen : (splitLines (replaceReferences c s).data).length =
      (splitLines c.data).length := by
    by_cases hc : c = ""
    · rw [show replaceReferences c s = c from by simp [replaceReferences, hc]]
    · have hdata : (replaceReferences c s).data =
          replaceGo oldPat (repChars s) c.data.length c.data := by
        simp only [replaceReferences]
        rw [if_neg hc]
      have hreps : countNl (repChars s) = 0 := by
        apply countNl_eq_zero
        intro x hx
        rcases List.mem_cons.mp hx with rfl | hx2
        · decide
        · rcases List.mem_append.mp hx2 with hx3 | hx3
          · exact scopeChar_not_newline (validScope_all s.data h x hx3)
          · rcases List.mem_singleton.mp hx3 with rfl
            decide
      rw [hdata, splitLines_length, splitLines_length,
        countNl_replaceGo oldPat (repChars s) (by decide) hreps (by decide)
          c.data.length c.data (le_refl _)]
  exact ⟨hlen, previewPairs_eq_zip _ _ hlen.symm⟩

/-- Two-line content with a reference on its second line, for exercising the
diff preview. -/
def c9content : String := "\x7b\n  \x22ui\x22: \x22@ordinarysh/ui\x22\n\x7d"

theorem C9_diff_preview_line_aligned_witness :
    isValidScope "myorg" = true ∧
    (splitLines (replaceReferences c9content "myorg").data).length =
      (splitLines c9content.data).length ∧
    previewPairs (splitLines c9content.data)
        (splitLines (replaceReferences c9content "myorg").data) =
      ((splitLines c9content.data).zip
          (splitLines (replaceReferences c9content "myorg").data)).filterMap
        (fun p => if p.1 ≠ p.2 then some (p.1, some p.2) else none) :=
  ⟨by decide, (C9_diff_preview_line_aligned c9content "myorg" (by decide)).1,
   (C9_diff_preview_line_aligned c9content "myorg" (by decide)).2⟩

/-- Declarative semantics of the scope-name regex
^[a-z0-9]([a-z0-9-]*[a-z0-9])?$ : either a single [a-z0-9] character, or an
[a-z0-9] character, then any run of [a-z0-9-] characters, then a final
[a-z0-9] character. -/
def ScopeRegexMatch (l : List Char) : Prop :=
  (∃ c, isLowerAlnum c = true ∧ l = [c]) ∨
  (∃ c mid d, isLowerAlnum c = true ∧ (∀ x ∈ mid, isScopeChar x = true) ∧
    isLowerAlnum d = true ∧ l = c :: (mid ++ [d]))

theorem scopeTail_iff (l : List Char) :
    scopeTail l = true ↔
      (l = [] ∨ ∃ mid d, (∀ x ∈ mid, isScopeChar x = true) ∧
        isLowerAlnum d = true ∧ l = mid ++ [d]) := by
  induction l with
  | nil => simp [scopeTail]
  | cons a cs ih =>
    cases cs with
    | nil =>
      constructor
      · intro h
        exact Or.inr ⟨[], a, by simp, h, rfl⟩
      · rintro (h | ⟨mid, d, hmid, hd, heq⟩)
        · exact absurd h (by simp)
        · cases mid with
          | nil =>
            rw [List.nil_append] at heq
            injection heq with h1 _
            rw [h1]
            exact hd
          | cons m ms =>
            rw [List.cons_append] at heq
            injection heq with _ h2
            exact absurd h2.symm (List.append_ne_nil_of_right_ne_nil ms (by simp))
    | cons b cs2 =>
      have hdef : scopeTail (a :: b :: cs2) = (isScopeChar a && scopeTail (b :: cs2)) := rfl
      rw [hdef, Bool.and_eq_true, ih]
      constructor
      · rintro ⟨ha, h | ⟨mid, d, hmid, hd, heq⟩⟩
        · exact absurd h (by simp)
        · refine Or.inr ⟨a :: mid, d, ?_, hd, by rw [heq]; rfl⟩
          intro x hx
          rcases List.mem_cons.mp hx with rfl | hx2
          · exact ha
          · exact hmid x hx2
      · rintro (h | ⟨mid, d, hmid, hd, heq⟩)
        · exact absurd h (by simp)
        · cases mid with
          | nil =>
            rw [List.nil_append] at heq
            injection heq with _ h2
            exact absurd h2 (by simp)
          | cons m ms =>
            rw [List.cons_append] at heq
            injection heq with h1 h2
            subst h1
            refine ⟨hmid a (List.mem_cons_self a ms), Or.inr ⟨ms, d, ?_, hd, h2⟩⟩
            exact fun x hx => hmid x (List.mem_cons_of_mem a hx)

theorem scopeChar_ranges {x : Char} (h : isScopeChar x = true) :
    (97 ≤ x.toNat ∧ x.toNat ≤ 122) ∨ (48 ≤ x.toNat ∧ x.toNat ≤ 57) ∨ x.toNat = 45 := by
  simp only [isScopeChar, isLowerAlnum, Bool.or_eq_true, Bool.and_eq_true,
    decide_eq_true_eq, beq_iff_eq] at h
  rcases h with (⟨h1, h2⟩ | ⟨h1, h2⟩) | h3
  · exact Or.inl ⟨h1, h2⟩
  · exact Or.inr (Or.inl ⟨h1, h2⟩)
  · subst h3
    exact Or.inr (Or.inr (by decide))

/-- C6: isValidScope returns true exactly when the candidate matches the
regex ^[a-z0-9]([a-z0-9-]*[a-z0-9])?$ ; in particular it returns false for
the empty string and for every string containing an uppercase letter or a
leading or trailing hyphen. -/
theorem C6_scope_validator :
    (∀ s : String, isValidScope s = true ↔ ScopeRegexMatch s.data) ∧
    isValidScope "" = false ∧
    (∀ s : String, (∃ x ∈ s.data, 65 ≤ x.toNat ∧ x.toNat ≤ 90) →
      isValidScope s = false) ∧
    (∀ s : String, s.data.head? = some '-' → isValidScope s = false) ∧
    (∀ s : String, s.data.getLast? = some '-' → isValidScope s = false) := by
  refine ⟨?_, by decide, ?_, ?_, ?_⟩
  · intro s
    show isValidScopeL s.data = true ↔ ScopeRegexMatch s.data
    cases hd : s.data with
    | nil =>
      simp only [isValidScopeL, ScopeRegexMatch]
      constructor
      · intro h; exact absurd h (by decide)
      · rintro (⟨c, _, hc⟩ | ⟨c, mid, d, _, _, _, hc⟩) <;> exact absurd hc (by simp)
    | cons a cs =>
      rw [isValidScopeL, Bool.and_eq_true, scopeTail_iff]
      constructor
      · rintro ⟨ha, h | ⟨mid, d, hmid, hdd, heq⟩⟩
        · exact Or.inl ⟨a, ha, by rw [h]⟩
        · exact Or.inr ⟨a, mid, d, ha, hmid, hdd, by rw [heq]⟩
      · rintro (⟨c, hc, heq⟩ | ⟨c, mid, d, hc, hmid, hdd, heq⟩)
        · injection heq with h1 h2
          subst h1
          exact ⟨hc, Or.inl h2⟩
        · injection heq with h1 h2
          subst h1
          exact ⟨hc, Or.inr ⟨mid, d, hmid, hdd, h2⟩⟩
  · intro s hx
    cases hb : isValidScope s with
    | false => rfl
    | true =>
      rcases hx with ⟨x, hmem, h65, h90⟩
      have hsc : isScopeChar x = true := validScope_all s.data hb x hmem
      rcases scopeChar_ranges hsc with ⟨h1, h2⟩ | ⟨h1, h2⟩ | h1 <;> omega
  · intro s hh
    cases hd : s.data with
    | nil => rw [hd] at hh; exact absurd hh (by simp)
    | cons a cs =>
      rw [hd] at hh
      simp only [List.head?_cons, Option.some.injEq] at hh
      show isValidScopeL s.data = false
      rw [hd, hh, isValidScopeL]
      have hda : isLowerAlnum '-' = false := by decide
      rw [hda, Bool.false_and]
  · intro s hl
    cases hb : isValidScope s with
    | false => rfl
    | true =>
      cases hd : s.data with
      | nil =>
        have : isValidScopeL s.data = true := hb
        rw [hd] at this
        exact absurd this (by decide)
      | cons a cs =>
        have hbl : isValidScopeL s.data = true := hb
        rw [hd, isValidScopeL, Bool.and_eq_true, scopeTail_iff] at hbl
        rw [hd] at hl
        rcases hbl with ⟨ha, hcs | ⟨mid, d, hmid, hdd, heq⟩⟩
        · rw [hcs] at hl
          simp only [List.getLast?_singleton, Option.some.injEq] at hl
          rw [hl] at ha
          exact absurd ha (by decide)
        · rw [heq] at hl
          have : (a :: (mid ++ [d])).getLast? = some d := by
            rw [show a :: (mid ++ [d]) = (a :: mid) ++ [d] from rfl]
            exact List.getLast?_concat (a :: mid)
          rw [this] at hl
          injection hl with hl2
          rw [hl2] at hdd
          exact absurd hdd (by decide)

theorem C6_scope_validator_witness :
    (isValidScope "my-org2" = true ↔ ScopeRegexMatch "my-org2".data) ∧
    isValidScope "" = false ∧
    isValidScope "MyOrg" = false ∧
    isValidScope "-org" = false ∧
    isValidScope "org-" = false :=
  ⟨C6_scope_validator.1 "my-org2",
   C6_scope_validator.2.1,
   C6_scope_validator.2.2.1 "MyOrg" ⟨'M', by decide, by decide, by decide⟩,
   C6_scope_validator.2.2.2.1 "-org" (by decide),
   C6_scope_validator.2.2.2.2 "org-" (by decide)⟩
